import Mathlib

/-!
Shallow embedding of `src/q_td_learning/mc_td_and_qlearning.py`: tabular
first-visit Monte Carlo control, SARSA and Q-learning on a finite MDP.

Modelling conventions:
* numpy 2-D float arrays of shape (nS, nA) become `List (List ℚ)`; the
  integer visit-count table becomes `List (List Nat)`.
* `np.random.choice(all_actions, p=policy[state])` (the only source of
  randomness in the learner) is modelled by an oracle
  `sampler : List ℚ → Nat` supplied as an argument: given the probability
  row it returns the index drawn.
* The gym environment is modelled by a structure `Env`: `reset` is the
  state returned by `env.reset()`, and `step i s a` is the
  `(new_state, reward, done)` observation `env.step(a)` produces when
  called at global call index `i` in state `s`; the call index lets a
  single deterministic function represent any realized run of a
  stochastic environment.
-/

namespace RL

/-- Model of the gym FrozenLake environment interface: `nS`/`nA` are the
static state/action counts, `reset` the state returned by `env.reset()`,
and `step i s a` the `(new_state, reward, done)` observation of the
`i`-th `env.step` call of the run, made in state `s` with action `a`. -/
structure Env where
  nS : Nat
  nA : Nat
  reset : Nat
  step : Nat → Nat → Nat → Nat × ℚ × Bool

/-- Read entry `[s, a]` of a (nS, nA) table, with default `d` out of range. -/
def tget {α : Type} (T : List (List α)) (s a : Nat) (d : α) : α :=
  (T.getD s []).getD a d

/-- Write entry `[s, a]` of a (nS, nA) table (out-of-range writes are dropped,
which never happens under the shape invariants of the source). -/
def tset {α : Type} (T : List (List α)) (s a : Nat) (v : α) : List (List α) :=
  T.set s ((T.getD s []).set a v)

/-- `np.amax` of a row; the source never applies it to an empty row
(numpy would raise there), so the `0` default is never exercised. -/
def npAmax (l : List ℚ) : ℚ :=
  match l with
  | [] => 0
  | x :: xs => xs.foldl max x

/-- `np.dot` of two equal-length vectors. -/
def dotProd (a b : List ℚ) : ℚ :=
  (List.zipWith (fun x y => x * y) a b).sum

/-- `sample_action(policy, state)` (source lines 12-36): draw one action from
the state's probability row; the draw itself is the oracle `sampler`. -/
def sample_action (sampler : List ℚ → Nat) (policy : List (List ℚ)) (state : Nat) : Nat :=
  sampler (policy.getD state [])

/-- Loop body of `generate_episode` (source lines 94-99): at call index `i`
with `fuel` loop iterations remaining and current state `s`, sample an
action, step the environment, append the `(state, action, reward)` triple,
and stop on `done` or when the fuel (the `range(max_steps)` bound) runs out. -/
def genAux (env : Env) (sampler : List ℚ → Nat) (policy : List (List ℚ)) :
    Nat → Nat → Nat → List (Nat × Nat × ℚ)
  | _, 0, _ => []
  | i, fuel + 1, s =>
    let a := sample_action sampler policy s
    let res := env.step i s a
    (s, a, res.2.1) :: (if res.2.2 then [] else genAux env sampler policy (i + 1) fuel res.1)

/-- `generate_episode(env, policy, max_steps=500)` (source lines 68-101). -/
def generate_episode (env : Env) (sampler : List ℚ → Nat) (policy : List (List ℚ))
    (max_steps : Nat := 500) : List (Nat × Nat × ℚ) :=
  genAux env sampler policy 0 max_steps env.reset

/-- The state occupied before the `i`-th `env.step` call of a run that starts
at `env.reset` and always follows `sample_action` (used to state facts about
the realized run of `generate_episode`). -/
def stateAt (env : Env) (sampler : List ℚ → Nat) (policy : List (List ℚ)) : Nat → Nat
  | 0 => env.reset
  | i + 1 =>
    (env.step i (stateAt env sampler policy i)
      (sample_action sampler policy (stateAt env sampler policy i))).1

/-- The `done` flag reported by the `i`-th `env.step` call of the realized run. -/
def doneAt (env : Env) (sampler : List ℚ → Nat) (policy : List (List ℚ)) (i : Nat) : Bool :=
  (env.step i (stateAt env sampler policy i)
    (sample_action sampler policy (stateAt env sampler policy i))).2.2

/-- `generate_returns(episode, gamma=0.9)` (source lines 103-139):
`epi_returns[i] = np.dot(reward_vector[i:], gamma_vector[i:] ** power_vector[0:len-i])`,
where `gamma_vector` is all `gamma` and `power_vector = [0, 1, ...]`, so the
second factor of the dot product is `[gamma^0, ..., gamma^(len-i-1)]`. -/
def generate_returns (episode : List (Nat × Nat × ℚ)) (gamma : ℚ) : List ℚ :=
  let len_episode := episode.length
  let reward_vector := episode.map (fun ep => ep.2.2)
  (List.range len_episode).map (fun i =>
    dotProd (reward_vector.drop i)
      ((List.range (len_episode - i)).map (fun k => gamma ^ k)))

/-- The spec's return vector, written from its words: one entry per timestep,
`return[i] = sum over j >= i of gamma^(j-i) * reward[j]`. -/
def specReturns (episode : List (Nat × Nat × ℚ)) (gamma : ℚ) : List ℚ :=
  (List.range episode.length).map (fun i =>
    ∑ j in Finset.Ico i episode.length, gamma ^ (j - i) * (episode.getD j (0, 0, 0)).2.2)

/-- The Monte Carlo incremental-mean value update of source line 180:
`Q[s,a] + (return - Q[s,a]) / n`, with `n` the (already incremented)
visit count. -/
def mcQUpdate (q G : ℚ) (n : Nat) : ℚ :=
  q + (G - q) / (n : ℚ)

/-- One iteration of the update loop of `mc_policy_evaluation`
(source lines 173-181), acting on `(visit_flag, Q_value, n_visits)` at
episode index `i`. Source line 181 reads `visit_flag[state, action] == 1`:
a comparison whose result is discarded, so the flag table is never
modified — the embedding reproduces that behaviour exactly. -/
def mcStep (episode : List (Nat × Nat × ℚ)) (returns : List ℚ)
    (st : List (List Nat) × List (List ℚ) × List (List Nat)) (i : Nat) :
    List (List Nat) × List (List ℚ) × List (List Nat) :=
  let flag := st.1
  let Q := st.2.1
  let n := st.2.2
  let state := (episode.getD i (0, 0, 0)).1
  let action := (episode.getD i (0, 0, 0)).2.1
  if tget flag state action 0 = 0 then
    let n' := tset n state action (tget n state action 0 + 1)
    let Q' := tset Q state action
      (mcQUpdate (tget Q state action 0) (returns.getD i 0) (tget n' state action 0))
    (flag, Q', n')
  else
    (flag, Q, n)

/-- The whole `for i in range(len(episode))` loop of `mc_policy_evaluation`. -/
def mcLoop (episode : List (Nat × Nat × ℚ)) (returns : List ℚ)
    (flag : List (List Nat)) (Q : List (List ℚ)) (n : List (List Nat)) :
    List (List Nat) × List (List ℚ) × List (List Nat) :=
  (List.range episode.length).foldl (mcStep episode returns) (flag, Q, n)

/-- `mc_policy_evaluation(env, policy, Q_value, n_visits, gamma=0.9)`
(source lines 142-183): sample one episode, compute its return vector, and
run the (intended first-visit) update loop; returns the updated
`(Q_value, n_visits)`. -/
def mc_policy_evaluation (env : Env) (sampler : List ℚ → Nat) (policy : List (List ℚ))
    (Q_value : List (List ℚ)) (n_visits : List (List Nat)) (gamma : ℚ) :
    List (List ℚ) × List (List Nat) :=
  let episode := generate_episode env sampler policy
  let returns := generate_returns episode gamma
  let visit_flag : List (List Nat) := List.replicate env.nS (List.replicate env.nA 0)
  let result := mcLoop episode returns visit_flag Q_value n_visits
  (result.2.1, result.2.2)

/-- The per-state row construction shared by
`epsilon_greedy_policy_improve` (source lines 211-220) and the inline
single-row policy rewrites of `td_sarsa` (lines 299-304) and `qlearning`
(lines 353-358): `indices = np.argwhere(row == np.amax(row))`, the maximal
actions get `(1 - epsilon)/len(indices) + epsilon/nA`, every other action
gets `epsilon/nA`. The three code sites are textually identical modulo
variable names; the loop writes every one of the `nA` entries, so the row
is the fresh length-`nA` list built here. -/
def egUpdateRow (row : List ℚ) (nA : Nat) (epsilon : ℚ) : List ℚ :=
  let indices := (List.range row.length).filter (fun i => row.getD i 0 = npAmax row)
  let probability := (1 - epsilon) / (indices.length : ℚ) + epsilon / (nA : ℚ)
  (List.range nA).map (fun i => if i ∈ indices then probability else epsilon / (nA : ℚ))

/-- `epsilon_greedy_policy_improve(Q_value, nS, nA, epsilon)`
(source lines 185-221). The initial `epsilon * np.ones((nS, nA)) / nA` fill
is irrelevant because the per-state loop overwrites all `nA` entries. -/
def epsilon_greedy_policy_improve (Q_value : List (List ℚ)) (nS nA : Nat) (epsilon : ℚ) :
    List (List ℚ) :=
  (List.range nS).map (fun state => egUpdateRow (Q_value.getD state []) nA epsilon)

/-- The SARSA value update of source line 294:
`Q[s,a] + alpha * (r + gamma * Q[s',a'] - Q[s,a])`. -/
def sarsaNewQ (Q : List (List ℚ)) (s a s' a' : Nat) (r alpha gamma : ℚ) : ℚ :=
  tget Q s a 0 + alpha * (r + gamma * tget Q s' a' 0 - tget Q s a 0)

/-- The Q-learning value update of source lines 348-349:
`Q[s,a] + alpha * (r + gamma * np.amax(Q[s']) - Q[s,a])`. -/
def qlearnNewQ (Q : List (List ℚ)) (s a s' : Nat) (r alpha gamma : ℚ) : ℚ :=
  tget Q s a 0 + alpha * (r + gamma * npAmax (Q.getD s' []) - tget Q s a 0)

/-- The loop-carried state of `td_sarsa`: the value table, the behaviour
policy, and the persistent `(s_t1, a_t1)` pair. -/
structure TDState where
  Q : List (List ℚ)
  policy : List (List ℚ)
  s : Nat
  a : Nat

/-- The loop-carried state of `qlearning`: as `TDState` but with no
persistent action. -/
structure QLState where
  Q : List (List ℚ)
  policy : List (List ℚ)
  s : Nat

/-- One iteration `t` of the `td_sarsa` loop (source lines 291-311):
step the environment with the carried action, sample `a_next` from the
current policy at the successor, apply the SARSA update, rewrite the
policy row for `s_t1` with the freshly updated `Q[s_t1]` and
`epsilon = 1/(t+2)`, then reset (resampling the action) on `done` or carry
`(s_next, a_next)` otherwise. -/
def td_sarsa_step (env : Env) (sampler : List ℚ → Nat) (gamma alpha : ℚ)
    (t : Nat) (st : TDState) : TDState :=
  let res := env.step t st.s st.a
  let s_next := res.1
  let reward := res.2.1
  let done := res.2.2
  let a_next := sample_action sampler st.policy s_next
  let Q1 := tset st.Q st.s st.a (sarsaNewQ st.Q st.s st.a s_next a_next reward alpha gamma)
  let epsilon := 1 / ((t : ℚ) + 2)
  let pol1 := st.policy.set st.s (egUpdateRow (Q1.getD st.s []) env.nA epsilon)
  if done then
    let s0 := env.reset
    { Q := Q1, policy := pol1, s := s0, a := sample_action sampler pol1 s0 }
  else
    { Q := Q1, policy := pol1, s := s_next, a := a_next }

/-- One iteration `t` of the `qlearning` loop (source lines 345-362):
sample an action from the behaviour policy at the current state, step the
environment, apply the max-bootstrap update, rewrite the policy row for
`s_t1`, and reset on `done` or carry `s_next` otherwise. -/
def qlearning_step (env : Env) (sampler : List ℚ → Nat) (gamma alpha : ℚ)
    (t : Nat) (st : QLState) : QLState :=
  let action := sample_action sampler st.policy st.s
  let res := env.step t st.s action
  let s_next := res.1
  let reward := res.2.1
  let done := res.2.2
  let Q1 := tset st.Q st.s action (qlearnNewQ st.Q st.s action s_next reward alpha gamma)
  let epsilon := 1 / ((t : ℚ) + 2)
  let pol1 := st.policy.set st.s (egUpdateRow (Q1.getD st.s []) env.nA epsilon)
  { Q := Q1, policy := pol1, s := if done then env.reset else s_next }

/-- `n` applications of the incremental-mean update of source lines 179-180
to a single `(s, a)` cell with the same return `G`, starting from value `q`
and visit count `0`; returns the `(Q value, visit count)` pair. -/
def mcRepeat (G q : ℚ) : Nat → ℚ × Nat
  | 0 => (q, 0)
  | n + 1 =>
    let p := mcRepeat G q n
    (mcQUpdate p.1 G (p.2 + 1), p.2 + 1)

/-- A one-state, two-action environment that never terminates, with zero
reward, used to instantiate universally quantified theorems. -/
def envW : Env := ⟨1, 2, 0, fun _ _ _ => (0, 0, false)⟩

/-- A sampler oracle that always draws action 0. -/
def samplerW : List ℚ → Nat := fun _ => 0

/-- A concrete SARSA loop state. -/
def stW : TDState := ⟨[[0, 0]], [[1, 0]], 0, 0⟩

/-- A concrete Q-learning loop state. -/
def stQW : QLState := ⟨[[0, 0]], [[1, 0]], 0⟩

/-- The environment of the C1 counter-run: 3 states, 2 actions, reset to
state 2; every step stays in state 2 with reward 1, and the second step
(call index 1) reports `done`, so the sampled episode is
`[(2, 1, 1), (2, 1, 1)]` — the pair (state 2, action 1) occurs twice. -/
def envC1 : Env := ⟨3, 2, 2, fun t _ _ => (2, 1, decide (1 ≤ t))⟩

/-- A sampler oracle that always draws action 1. -/
def samplerC1 : List ℚ → Nat := fun _ => 1

/-- A policy putting all probability on action 1 in every state, consistent
with `samplerC1`. -/
def policyC1 : List (List ℚ) := List.replicate 3 [0, 1]

/-- An always-terminating variant of `envW`: same successor and reward,
but `done` is always reported. -/
def envD : Env := ⟨1, 2, 0, fun _ _ _ => (0, 0, true)⟩

/-! ### Helper lemmas -/

theorem tget_tset_self {α : Type} (T : List (List α)) (s a : Nat) (v d : α)
    (hs : s < T.length) (ha : a < (T.getD s []).length) :
    tget (tset T s a v) s a d = v := by
  have hs' : s < (T.set s ((T.getD s []).set a v)).length := by simpa using hs
  have h1 : (T.set s ((T.getD s []).set a v)).getD s [] = (T.getD s []).set a v := by
    rw [List.getD_eq_getElem _ _ hs']
    exact List.getElem_set_self _
  unfold tget tset
  rw [h1]
  have ha' : a < ((T.getD s []).set a v).length := by simpa using ha
  rw [List.getD_eq_getElem _ _ ha']
  exact List.getElem_set_self _

theorem foldl_max_mem : ∀ (xs : List ℚ) (x : ℚ),
    xs.foldl max x = x ∨ xs.foldl max x ∈ xs := by
  intro xs
  induction xs with
  | nil => intro x; left; rfl
  | cons y ys ih =>
    intro x
    rcases ih (max x y) with h | h
    · rcases max_choice x y with hm | hm
      · left; rw [List.foldl_cons, h, hm]
      · right; rw [List.foldl_cons, h, hm]; exact List.mem_cons_self _ _
    · right; exact List.mem_cons_of_mem _ h

theorem npAmax_mem (l : List ℚ) (h : l ≠ []) : npAmax l ∈ l := by
  cases l with
  | nil => exact absurd rfl h
  | cons x xs =>
    rcases foldl_max_mem xs x with h1 | h1
    · rw [npAmax, h1]; exact List.mem_cons_self _ _
    · rw [npAmax]; exact List.mem_cons_of_mem _ h1

theorem left_le_foldl_max : ∀ (xs : List ℚ) (x : ℚ), x ≤ xs.foldl max x := by
  intro xs
  induction xs with
  | nil => intro x; exact le_refl x
  | cons y ys ih =>
    intro x
    exact le_trans (le_max_left x y) (ih (max x y))

theorem mem_le_foldl_max : ∀ (xs : List ℚ) (x y : ℚ), y ∈ xs → y ≤ xs.foldl max x := by
  intro xs
  induction xs with
  | nil => intro x y hy; simp at hy
  | cons z zs ih =>
    intro x y hy
    rcases List.mem_cons.mp hy with h | h
    · subst h
      exact le_trans (le_max_right x y) (left_le_foldl_max zs (max x y))
    · exact ih (max x z) y h

theorem le_npAmax (l : List ℚ) (x : ℚ) (hx : x ∈ l) : x ≤ npAmax l := by
  cases l with
  | nil => simp at hx
  | cons y ys =>
    rcases List.mem_cons.mp hx with h | h
    · subst h; exact left_le_foldl_max ys x
    · exact mem_le_foldl_max ys y x h

theorem sum_map_range (n : Nat) (f : Nat → ℚ) :
    ((List.range n).map f).sum = ∑ i in Finset.range n, f i := by
  induction n with
  | zero => simp
  | succ m ih =>
    rw [List.range_succ, List.map_append, List.sum_append, Finset.sum_range_succ, ih]
    simp

theorem filter_range_length_card (n : Nat) (p : Nat → Prop) [DecidablePred p] :
    ((List.range n).filter (fun i => decide (p i))).length
      = ((Finset.range n).filter p).card := by
  rw [← List.toFinset_card_of_nodup ((List.nodup_range n).filter _)]
  congr 1
  ext i
  simp [List.mem_filter, List.mem_range]

theorem dotPow (gamma : ℚ) : ∀ (l : List ℚ) (m : Nat),
    dotProd l ((List.range l.length).map (fun k => gamma ^ (k + m)))
      = ∑ k in Finset.range l.length, l.getD k 0 * gamma ^ (k + m) := by
  intro l
  induction l with
  | nil => intro m; simp [dotProd]
  | cons x xs ih =>
    intro m
    rw [List.length_cons, List.range_succ_eq_map]
    rw [List.map_cons, List.map_map]
    have hcomp : ((fun k => gamma ^ (k + m)) ∘ Nat.succ) = fun k => gamma ^ (k + (m + 1)) := by
      funext k
      show gamma ^ (Nat.succ k + m) = gamma ^ (k + (m + 1))
      rw [Nat.succ_add, Nat.add_succ]
    rw [hcomp]
    show dotProd (x :: xs)
        (gamma ^ (0 + m) :: (List.range xs.length).map (fun k => gamma ^ (k + (m + 1)))) = _
    rw [show dotProd (x :: xs)
          (gamma ^ (0 + m) :: (List.range xs.length).map (fun k => gamma ^ (k + (m + 1))))
        = x * gamma ^ (0 + m)
          + dotProd xs ((List.range xs.length).map (fun k => gamma ^ (k + (m + 1)))) from rfl]
    rw [ih (m + 1)]
    rw [Finset.sum_range_succ' (fun k => (x :: xs).getD k 0 * gamma ^ (k + m)) xs.length]
    simp only [List.getD_cons_succ, List.getD_cons_zero]
    have harg : ∀ k, k + 1 + m = k + (m + 1) := by intro k; omega
    simp only [harg]
    ring

theorem generate_returns_eq_spec (episode : List (Nat × Nat × ℚ)) (gamma : ℚ) :
    generate_returns episode gamma = specReturns episode gamma := by
  simp only [generate_returns, specReturns]
  apply List.map_congr_left
  intro i hi
  have hi' : i < episode.length := List.mem_range.mp hi
  set rv : List ℚ := episode.map (fun ep => ep.2.2) with hrv_def
  have hrv : rv.length = episode.length := List.length_map _ _
  have hdl : (rv.drop i).length = episode.length - i := by
    rw [List.length_drop, hrv]
  have h0 : (fun k => gamma ^ k) = (fun k => gamma ^ (k + 0)) := by
    funext k
    rw [Nat.add_zero]
  rw [h0, ← hdl, dotPow gamma (rv.drop i) 0]
  rw [Finset.sum_Ico_eq_sum_range
    (fun j => gamma ^ (j - i) * (episode.getD j (0, 0, 0)).2.2) i episode.length]
  rw [← hdl]
  apply Finset.sum_congr rfl
  intro k hk
  have hk' : k < (rv.drop i).length := Finset.mem_range.mp hk
  have hik : i + k < rv.length := by
    rw [hrv]
    rw [hdl] at hk'
    omega
  have h1 : (rv.drop i).getD k 0 = rv[i + k] := by
    rw [List.getD_eq_getElem _ _ hk']
    exact List.getElem_drop _
  have hike : i + k < episode.length := by rw [← hrv]; exact hik
  have h2 : rv[i + k] = episode[i + k].2.2 := List.getElem_map _
  have h3 : episode.getD (i + k) (0, 0, 0) = episode[i + k] :=
    List.getD_eq_getElem _ _ hike
  rw [h1, h2, h3, Nat.add_zero, Nat.add_sub_cancel_left]
  ring

/-! ### Claim theorems -/

/-- C3: for every finite trajectory and every gamma (in particular every
gamma in [0,1]), `generate_returns` has the same length as the trajectory
and equals the spec's return vector `return[i] = sum over j >= i of
gamma^(j-i) * reward[j]` (`specReturns`); it depends only on the reward
sequence, not on the states and actions; a single-step episode returns
exactly its one reward. -/
theorem C3_generate_returns_correct (episode : List (Nat × Nat × ℚ)) (gamma : ℚ) :
    (generate_returns episode gamma).length = episode.length
    ∧ generate_returns episode gamma = specReturns episode gamma
    ∧ (∀ episode₂ : List (Nat × Nat × ℚ),
        episode.map (fun ep => ep.2.2) = episode₂.map (fun ep => ep.2.2) →
        generate_returns episode gamma = generate_returns episode₂ gamma)
    ∧ (∀ (s a : Nat) (r : ℚ), generate_returns [(s, a, r)] gamma = [r]) := by
  refine ⟨?_, generate_returns_eq_spec episode gamma, ?_, ?_⟩
  · simp [generate_returns]
  · intro episode₂ h
    have hlen : episode.length = episode₂.length := by
      rw [← List.length_map episode (fun ep => ep.2.2), h, List.length_map]
    simp only [generate_returns]
    rw [h, hlen]
  · intro s a r
    show [(List.zipWith (fun x y => x * y) ([r].drop 0)
        ((List.range (1 - 0)).map (fun k => gamma ^ k))).sum] = [r]
    have h1 : List.range 1 = [0] := by decide
    norm_num [h1]

/-- C3 witness: two single-step episodes with different states and actions
but the same reward have the same (one-entry) return vector. -/
theorem C3_generate_returns_correct_witness :
    generate_returns [(0, 1, 1), (4, 2, -1)] (9/10)
      = generate_returns [(5, 0, 1), (7, 3, -1)] (9/10) :=
  (C3_generate_returns_correct [(0, 1, 1), (4, 2, -1)] (9/10)).2.2.1
    [(5, 0, 1), (7, 3, -1)] (by decide)

/-- C9: for a zero-length trajectory, `generate_returns` returns an empty
result for every discount factor, and no division by the episode length or
similar error can occur since the embedded function is total. -/
theorem C9_generate_returns_empty : ∀ gamma : ℚ, generate_returns [] gamma = [] := by
  intro gamma
  rfl

/-- C8: starting from a visit count of `0` and any initial value `q`,
applying the incremental-mean update of source lines 179-180 `n` times with
the same return `G` yields the value `G` exactly and the visit count `n`,
for every `n ≥ 1`. -/
theorem C8_incremental_mean_exact (q G : ℚ) (n : Nat) (hn : 1 ≤ n) :
    (mcRepeat G q n).1 = G ∧ (mcRepeat G q n).2 = n := by
  have hcount : ∀ m : Nat, (mcRepeat G q m).2 = m := by
    intro m
    induction m with
    | zero => rfl
    | succ k ih => rw [mcRepeat]; simpa using ih
  have key : ∀ k, (mcRepeat G q (k + 1)).1 = G := by
    intro k
    induction k with
    | zero =>
      show mcQUpdate (mcRepeat G q 0).1 G ((mcRepeat G q 0).2 + 1) = G
      norm_num [mcRepeat, mcQUpdate]
    | succ m ih =>
      show mcQUpdate (mcRepeat G q (m + 1)).1 G ((mcRepeat G q (m + 1)).2 + 1) = G
      rw [ih]
      unfold mcQUpdate
      rw [sub_self, zero_div, add_zero]
  obtain ⟨m, rfl⟩ : ∃ m, n = m + 1 := ⟨n - 1, by omega⟩
  exact ⟨key m, hcount _⟩

/-- C8 witness: three updates with return `5` from initial value `7` give
exactly `(5, 3)`. -/
theorem C8_incremental_mean_exact_witness :
    1 ≤ 3 ∧ ((mcRepeat 5 7 3).1 = (5 : ℚ) ∧ (mcRepeat 5 7 3).2 = 3) :=
  ⟨by decide, C8_incremental_mean_exact 7 5 3 (by decide)⟩

theorem egUpdateRow_indices_card (row : List ℚ) (nA : Nat) (hlen : row.length = nA)
    (hnA : 1 ≤ nA) :
    1 ≤ ((Finset.range nA).filter (fun i => row.getD i 0 = npAmax row)).card := by
  have hne : row ≠ [] := by
    intro h
    rw [h] at hlen
    simp at hlen
    omega
  obtain ⟨j, hj, hjv⟩ := List.getElem_of_mem (npAmax_mem row hne)
  have hjA : j < nA := by omega
  have hmem : j ∈ (Finset.range nA).filter (fun i => row.getD i 0 = npAmax row) := by
    rw [Finset.mem_filter, Finset.mem_range]
    exact ⟨hjA, by rw [List.getD_eq_getElem _ _ hj, hjv]⟩
  exact Finset.card_pos.mpr ⟨j, hmem⟩

theorem egUpdateRow_sum (row : List ℚ) (nA : Nat) (epsilon : ℚ)
    (hlen : row.length = nA) (hnA : 1 ≤ nA) :
    (egUpdateRow row nA epsilon).sum = 1 := by
  unfold egUpdateRow
  rw [hlen]
  rw [sum_map_range nA]
  have hLC : ((List.range nA).filter (fun i => row.getD i 0 = npAmax row)).length
      = ((Finset.range nA).filter (fun i => row.getD i 0 = npAmax row)).card :=
    filter_range_length_card nA (fun i => row.getD i 0 = npAmax row)
  have hbody : ∀ i ∈ Finset.range nA,
      (if i ∈ (List.range nA).filter (fun i => row.getD i 0 = npAmax row)
       then (1 - epsilon) / (((List.range nA).filter
              (fun i => row.getD i 0 = npAmax row)).length : ℚ) + epsilon / (nA : ℚ)
       else epsilon / (nA : ℚ))
      = (if row.getD i 0 = npAmax row
         then (1 - epsilon) / ((((Finset.range nA).filter
                (fun i => row.getD i 0 = npAmax row)).card : ℚ)) + epsilon / (nA : ℚ)
         else epsilon / (nA : ℚ)) := by
    intro i hi
    rw [hLC]
    apply if_congr _ rfl rfl
    simp only [List.mem_filter, List.mem_range, decide_eq_true_eq]
    exact ⟨fun h => h.2, fun h => ⟨Finset.mem_range.mp hi, h⟩⟩
  rw [Finset.sum_congr rfl hbody]
  rw [Finset.sum_ite]
  rw [Finset.sum_const, Finset.sum_const]
  have hC1 : 1 ≤ ((Finset.range nA).filter (fun i => row.getD i 0 = npAmax row)).card :=
    egUpdateRow_indices_card row nA hlen hnA
  have hCle : ((Finset.range nA).filter (fun i => row.getD i 0 = npAmax row)).card ≤ nA :=
    le_trans (Finset.card_filter_le _ _) (le_of_eq (Finset.card_range nA))
  have hnotcard : ((Finset.range nA).filter (fun i => ¬ row.getD i 0 = npAmax row)).card
      = nA - ((Finset.range nA).filter (fun i => row.getD i 0 = npAmax row)).card := by
    have h := Finset.filter_card_add_filter_neg_card_eq_card
      (s := Finset.range nA) (p := fun i => row.getD i 0 = npAmax row)
    simp only [Finset.card_range] at h
    omega
  rw [hnotcard]
  set C : Nat := ((Finset.range nA).filter (fun i => row.getD i 0 = npAmax row)).card with hC
  rw [nsmul_eq_mul, nsmul_eq_mul]
  have hCQ : (C : ℚ) ≠ 0 := by
    have h0 : (0 : ℚ) < (C : ℚ) := by exact_mod_cast hC1
    exact ne_of_gt h0
  have hnAQ : (nA : ℚ) ≠ 0 := by
    have h0 : (0 : ℚ) < (nA : ℚ) := by exact_mod_cast hnA
    exact ne_of_gt h0
  rw [Nat.cast_sub hCle]
  field_simp
  ring

theorem tset_getD_self {α : Type} (T : List (List α)) (s a : Nat) (v : α)
    (hs : s < T.length) :
    (tset T s a v).getD s [] = (T.getD s []).set a v := by
  unfold tset
  rw [List.getD_eq_getElem _ _ (by simpa using hs)]
  exact List.getElem_set_self _

theorem getD_mem {α : Type} (T : List (List α)) (s : Nat) (hs : s < T.length) :
    T.getD s [] ∈ T := by
  rw [List.getD_eq_getElem _ _ hs]
  exact List.getElem_mem _

theorem td_sarsa_step_Q (env : Env) (sampler : List ℚ → Nat) (gamma alpha : ℚ)
    (t : Nat) (st : TDState) :
    (td_sarsa_step env sampler gamma alpha t st).Q
      = tset st.Q st.s st.a (sarsaNewQ st.Q st.s st.a (env.step t st.s st.a).1
          (sample_action sampler st.policy (env.step t st.s st.a).1)
          (env.step t st.s st.a).2.1 alpha gamma) := by
  unfold td_sarsa_step
  by_cases h : (env.step t st.s st.a).2.2
  · simp [h]
  · simp [h]

theorem td_sarsa_step_policy (env : Env) (sampler : List ℚ → Nat) (gamma alpha : ℚ)
    (t : Nat) (st : TDState) :
    (td_sarsa_step env sampler gamma alpha t st).policy
      = st.policy.set st.s (egUpdateRow
          ((tset st.Q st.s st.a (sarsaNewQ st.Q st.s st.a (env.step t st.s st.a).1
              (sample_action sampler st.policy (env.step t st.s st.a).1)
              (env.step t st.s st.a).2.1 alpha gamma)).getD st.s [])
          env.nA (1 / ((t : ℚ) + 2))) := by
  unfold td_sarsa_step
  by_cases h : (env.step t st.s st.a).2.2
  · simp [h]
  · simp [h]

theorem td_sarsa_step_carry (env : Env) (sampler : List ℚ → Nat) (gamma alpha : ℚ)
    (t : Nat) (st : TDState) (h : (env.step t st.s st.a).2.2 = false) :
    (td_sarsa_step env sampler gamma alpha t st).s = (env.step t st.s st.a).1
    ∧ (td_sarsa_step env sampler gamma alpha t st).a
        = sample_action sampler st.policy (env.step t st.s st.a).1 := by
  unfold td_sarsa_step
  simp [h]

theorem qlearning_step_Q (env : Env) (sampler : List ℚ → Nat) (gamma alpha : ℚ)
    (t : Nat) (st : QLState) :
    (qlearning_step env sampler gamma alpha t st).Q
      = tset st.Q st.s (sample_action sampler st.policy st.s)
          (qlearnNewQ st.Q st.s (sample_action sampler st.policy st.s)
            (env.step t st.s (sample_action sampler st.policy st.s)).1
            (env.step t st.s (sample_action sampler st.policy st.s)).2.1 alpha gamma) := by
  unfold qlearning_step
  simp

theorem qlearning_step_policy (env : Env) (sampler : List ℚ → Nat) (gamma alpha : ℚ)
    (t : Nat) (st : QLState) :
    (qlearning_step env sampler gamma alpha t st).policy
      = st.policy.set st.s (egUpdateRow
          ((tset st.Q st.s (sample_action sampler st.policy st.s)
              (qlearnNewQ st.Q st.s (sample_action sampler st.policy st.s)
                (env.step t st.s (sample_action sampler st.policy st.s)).1
                (env.step t st.s (sample_action sampler st.policy st.s)).2.1
                alpha gamma)).getD st.s [])
          env.nA (1 / ((t : ℚ) + 2))) := by
  unfold qlearning_step
  simp

/-- C2: in every state row produced by `epsilon_greedy_policy_improve`,
each action whose Q value exactly equals the row maximum receives
probability `(1 - epsilon)/|M| + epsilon/nA` (with `M` the set of maximal
actions of the row) and every other action receives `epsilon/nA`; in
particular for `Q[s] = [3,3,1,3]`, `epsilon = 1/5`, `nA = 4` the row is
`[19/60, 19/60, 1/20, 19/60]` (and `19/60 = 0.8/3 + 0.05`,
`1/20 = 0.05`). -/
theorem C2_epsilon_greedy_tie_split (Q : List (List ℚ)) (nS nA : Nat) (epsilon : ℚ)
    (s a : Nat) (hs : s < nS) (ha : a < nA) (hrow : (Q.getD s []).length = nA) :
    tget (epsilon_greedy_policy_improve Q nS nA epsilon) s a 0
      = (if (Q.getD s []).getD a 0 = npAmax (Q.getD s [])
         then (1 - epsilon) / ((((Finset.range nA).filter
                (fun i => (Q.getD s []).getD i 0 = npAmax (Q.getD s []))).card : ℚ))
              + epsilon / (nA : ℚ)
         else epsilon / (nA : ℚ))
    ∧ epsilon_greedy_policy_improve [[3, 3, 1, 3]] 1 4 (1/5)
        = [[19/60, 19/60, 1/20, 19/60]] := by
  constructor
  · unfold tget epsilon_greedy_policy_improve
    have hs2 : s < ((List.range nS).map
        (fun state => egUpdateRow (Q.getD state []) nA epsilon)).length := by
      simpa using hs
    rw [List.getD_eq_getElem _ _ hs2, List.getElem_map, List.getElem_range]
    unfold egUpdateRow
    rw [hrow]
    have ha2 : a < ((List.range nA).map
        (fun i => if i ∈ (List.range nA).filter
            (fun i => (Q.getD s []).getD i 0 = npAmax (Q.getD s []))
          then (1 - epsilon) / ((((List.range nA).filter
                 (fun i => (Q.getD s []).getD i 0 = npAmax (Q.getD s []))).length : ℚ))
               + epsilon / (nA : ℚ)
          else epsilon / (nA : ℚ))).length := by
      simpa using ha
    rw [List.getD_eq_getElem _ _ ha2, List.getElem_map, List.getElem_range]
    rw [filter_range_length_card nA (fun i => (Q.getD s []).getD i 0 = npAmax (Q.getD s []))]
    apply if_congr _ rfl rfl
    simp only [List.mem_filter, List.mem_range, decide_eq_true_eq]
    exact ⟨fun h => h.2, fun h => ⟨ha, h⟩⟩
  · show [egUpdateRow ([[(3 : ℚ), 3, 1, 3]].getD 0 []) 4 (1/5)]
        = [[19/60, 19/60, 1/20, 19/60]]
    have hrowv : [[(3 : ℚ), 3, 1, 3]].getD 0 [] = [3, 3, 1, 3] := rfl
    rw [hrowv]
    have h4 : List.range 4 = [0, 1, 2, 3] := by decide
    have hmax : npAmax [3, 3, 1, 3] = 3 := by decide
    have hlen : ([3, 3, 1, 3] : List ℚ).length = 4 := rfl
    simp only [egUpdateRow, hlen, h4, hmax]
    norm_num [List.filter]

/-- C2 witness: the tie-splitting formula instantiated at the spec's
concrete example, state 0 and action 0. -/
theorem C2_epsilon_greedy_tie_split_witness :
    tget (epsilon_greedy_policy_improve [[3, 3, 1, 3]] 1 4 (1/5)) 0 0 0
      = (if ([[(3 : ℚ), 3, 1, 3]].getD 0 []).getD 0 0 = npAmax ([[(3 : ℚ), 3, 1, 3]].getD 0 [])
         then (1 - 1/5) / ((((Finset.range 4).filter
                (fun i => ([[(3 : ℚ), 3, 1, 3]].getD 0 []).getD i 0
                  = npAmax ([[(3 : ℚ), 3, 1, 3]].getD 0 []))).card : ℚ))
              + (1/5) / ((4 : Nat) : ℚ)
         else (1/5) / ((4 : Nat) : ℚ)) :=
  (C2_epsilon_greedy_tie_split [[3, 3, 1, 3]] 1 4 (1/5) 0 0
    (by decide) (by decide) (by decide)).1

/-- C4: every policy row produced or rewritten during the control loops
sums to 1: all rows returned by `epsilon_greedy_policy_improve` (for
epsilon in (0,1] and well-shaped Q), and row-stochasticity is preserved by
the per-step single-row policy rewrites of `td_sarsa_step` and
`qlearning_step`. -/
theorem C4_policy_rows_sum_to_one :
    (∀ (Q : List (List ℚ)) (nS nA : Nat) (epsilon : ℚ),
        0 < epsilon → epsilon ≤ 1 → 1 ≤ nA → Q.length = nS →
        (∀ row ∈ Q, row.length = nA) →
        ∀ prow ∈ epsilon_greedy_policy_improve Q nS nA epsilon, prow.sum = 1)
    ∧ (∀ (env : Env) (sampler : List ℚ → Nat) (gamma alpha : ℚ) (t : Nat) (st : TDState),
        1 ≤ env.nA → st.s < st.Q.length →
        (∀ row ∈ st.Q, row.length = env.nA) →
        (∀ prow ∈ st.policy, prow.sum = 1) →
        ∀ prow ∈ (td_sarsa_step env sampler gamma alpha t st).policy, prow.sum = 1)
    ∧ (∀ (env : Env) (sampler : List ℚ → Nat) (gamma alpha : ℚ) (t : Nat) (st : QLState),
        1 ≤ env.nA → st.s < st.Q.length →
        (∀ row ∈ st.Q, row.length = env.nA) →
        (∀ prow ∈ st.policy, prow.sum = 1) →
        ∀ prow ∈ (qlearning_step env sampler gamma alpha t st).policy, prow.sum = 1) := by
  refine ⟨?_, ?_, ?_⟩
  · intro Q nS nA epsilon _ _ hnA hQlen hrows prow hmem
    unfold epsilon_greedy_policy_improve at hmem
    obtain ⟨s, hsmem, rfl⟩ := List.mem_map.mp hmem
    have hsQ : s < Q.length := by
      rw [hQlen]
      exact List.mem_range.mp hsmem
    exact egUpdateRow_sum _ _ _ (hrows _ (getD_mem Q s hsQ)) hnA
  · intro env sampler gamma alpha t st hnA hsQ hrows hpol prow hmem
    rw [td_sarsa_step_policy] at hmem
    rcases List.mem_or_eq_of_mem_set hmem with h | h
    · exact hpol _ h
    · subst h
      apply egUpdateRow_sum _ _ _ _ hnA
      rw [tset_getD_self _ _ _ _ hsQ, List.length_set]
      exact hrows _ (getD_mem st.Q st.s hsQ)
  · intro env sampler gamma alpha t st hnA hsQ hrows hpol prow hmem
    rw [qlearning_step_policy] at hmem
    rcases List.mem_or_eq_of_mem_set hmem with h | h
    · exact hpol _ h
    · subst h
      apply egUpdateRow_sum _ _ _ _ hnA
      rw [tset_getD_self _ _ _ _ hsQ, List.length_set]
      exact hrows _ (getD_mem st.Q st.s hsQ)

/-- C4 witness: concrete rows of the improved policy and of the two step
functions sum to 1. -/
theorem C4_policy_rows_sum_to_one_witness :
    ((epsilon_greedy_policy_improve [[3, 3, 1, 3]] 1 4 (1/5)).getD 0 []).sum = 1
    ∧ ((td_sarsa_step envW samplerW 1 1 0 stW).policy.getD 0 []).sum = 1
    ∧ ((qlearning_step envW samplerW 1 1 0 stQW).policy.getD 0 []).sum = 1 := by
  have hpolW : ∀ prow ∈ ([[1, 0]] : List (List ℚ)), prow.sum = 1 := by
    intro prow hp
    rw [List.mem_singleton] at hp
    subst hp
    norm_num
  refine ⟨?_, ?_, ?_⟩
  · refine C4_policy_rows_sum_to_one.1 [[3, 3, 1, 3]] 1 4 (1/5)
      (by norm_num) (by norm_num) (by norm_num) (by decide) (by decide) _
      (getD_mem _ 0 ?_)
    simp [epsilon_greedy_policy_improve]
  · refine C4_policy_rows_sum_to_one.2.1 envW samplerW 1 1 0 stW
      (by decide) (by decide) (by decide) hpolW _ (getD_mem _ 0 ?_)
    rw [td_sarsa_step_policy]
    simp [stW]
  · refine C4_policy_rows_sum_to_one.2.2 envW samplerW 1 1 0 stQW
      (by decide) (by decide) (by decide) hpolW _ (getD_mem _ 0 ?_)
    rw [qlearning_step_policy]
    simp [stQW]

/-- C1 (evidence of the code bug): on the concrete run of `envC1` the
sampled episode visits the pair (state 2, action 1) twice, yet
`mc_policy_evaluation` updates that pair's entries TWICE, not once: the
visit count ends at 2 (not 1) and the Q value ends at 5/4, the result of a
second update with the second occurrence's return 1, instead of the first
occurrence's return 3/2 — because source line 181
`visit_flag[state, action] == 1` is a no-op comparison instead of an
assignment, so the documented first-visit rule is never enforced. -/
theorem C1_every_visit_bug :
    generate_episode envC1 samplerC1 policyC1 = [(2, 1, 1), (2, 1, 1)]
    ∧ generate_returns [(2, 1, 1), (2, 1, 1)] (1/2) = [3/2, 1]
    ∧ tget (mc_policy_evaluation envC1 samplerC1 policyC1
        (List.replicate 3 [0, 0]) (List.replicate 3 [0, 0]) (1/2)).2 2 1 0 = 2
    ∧ tget (mc_policy_evaluation envC1 samplerC1 policyC1
        (List.replicate 3 [0, 0]) (List.replicate 3 [0, 0]) (1/2)).1 2 1 0 = 5/4 := by
  refine ⟨by decide, ?_, by decide, ?_⟩
  · have h2 : List.range 2 = [0, 1] := by decide
    have h1 : List.range 1 = [0] := by decide
    norm_num [generate_returns, dotProd, h2, h1]
  · have hstruct : tget (mc_policy_evaluation envC1 samplerC1 policyC1
        (List.replicate 3 [0, 0]) (List.replicate 3 [0, 0]) (1/2)).1 2 1 0
        = mcQUpdate (mcQUpdate 0 (dotProd [1, 1] [(1/2 : ℚ) ^ 0, (1/2) ^ 1]) 1)
            (dotProd [1] [(1/2 : ℚ) ^ 0]) 2 := rfl
    rw [hstruct]
    norm_num [mcQUpdate, dotProd]

theorem td_sarsa_step_reset (env : Env) (sampler : List ℚ → Nat) (gamma alpha : ℚ)
    (t : Nat) (st : TDState) (h : (env.step t st.s st.a).2.2 = true) :
    (td_sarsa_step env sampler gamma alpha t st).s = env.reset := by
  unfold td_sarsa_step
  simp [h]

theorem qlearning_step_s (env : Env) (sampler : List ℚ → Nat) (gamma alpha : ℚ)
    (t : Nat) (st : QLState) :
    (qlearning_step env sampler gamma alpha t st).s
      = (if (env.step t st.s (sample_action sampler st.policy st.s)).2.2 then env.reset
         else (env.step t st.s (sample_action sampler st.policy st.s)).1) := by
  unfold qlearning_step
  simp

/-- C6: in every SARSA step, the next action is drawn by the sampler from
the CURRENT (pre-update) policy's row at the observed successor state, the
Q update at the carried pair (s, a) is exactly
`Q[s,a] + alpha * (r + gamma * Q[s',a'] - Q[s,a])` with that sampled a'
(`sarsaNewQ`), and when the step is not `done` the sampled pair (s', a')
becomes the carried (state, action) pair of the next step. -/
theorem C6_sarsa_on_policy_update (env : Env) (sampler : List ℚ → Nat)
    (gamma alpha : ℚ) (t : Nat) (st : TDState)
    (hs : st.s < st.Q.length) (ha : st.a < (st.Q.getD st.s []).length) :
    tget (td_sarsa_step env sampler gamma alpha t st).Q st.s st.a 0
      = sarsaNewQ st.Q st.s st.a (env.step t st.s st.a).1
          (sample_action sampler st.policy (env.step t st.s st.a).1)
          (env.step t st.s st.a).2.1 alpha gamma
    ∧ ((env.step t st.s st.a).2.2 = false →
        (td_sarsa_step env sampler gamma alpha t st).s = (env.step t st.s st.a).1
        ∧ (td_sarsa_step env sampler gamma alpha t st).a
            = sample_action sampler st.policy (env.step t st.s st.a).1) := by
  constructor
  · rw [td_sarsa_step_Q]
    exact tget_tset_self _ _ _ _ _ hs ha
  · intro hdone
    exact td_sarsa_step_carry env sampler gamma alpha t st hdone

/-- C6 witness: the SARSA step equations instantiated on a concrete
environment and loop state. -/
theorem C6_sarsa_on_policy_update_witness :
    tget (td_sarsa_step envW samplerW 1 1 0 stW).Q stW.s stW.a 0
      = sarsaNewQ stW.Q stW.s stW.a (envW.step 0 stW.s stW.a).1
          (sample_action samplerW stW.policy (envW.step 0 stW.s stW.a).1)
          (envW.step 0 stW.s stW.a).2.1 1 1
    ∧ ((envW.step 0 stW.s stW.a).2.2 = false →
        (td_sarsa_step envW samplerW 1 1 0 stW).s = (envW.step 0 stW.s stW.a).1
        ∧ (td_sarsa_step envW samplerW 1 1 0 stW).a
            = sample_action samplerW stW.policy (envW.step 0 stW.s stW.a).1) :=
  C6_sarsa_on_policy_update envW samplerW 1 1 0 stW (by decide) (by decide)

/-- C5: in every Q-learning step the updated entry at the executed pair
equals `Q[s,a] + alpha * (r + gamma * npAmax Q[s'] - Q[s,a])`, where
`npAmax Q[s']` dominates every entry of the successor row; the produced Q
table is unchanged by replacing the sampler with any sampler drawing the
same action at the current state (so the update is independent of any draw
at the successor); and on the concrete table [[0,0],[1,2]] with
(s,a,s',r) = (0,0,1,0), alpha = gamma = 1, a' = 0, the SARSA update and the
Q-learning update differ. -/
theorem C5_qlearning_max_bootstrap (env : Env) (sampler : List ℚ → Nat)
    (gamma alpha : ℚ) (t : Nat) (st : QLState)
    (hs : st.s < st.Q.length)
    (ha : sample_action sampler st.policy st.s < (st.Q.getD st.s []).length) :
    tget (qlearning_step env sampler gamma alpha t st).Q st.s
        (sample_action sampler st.policy st.s) 0
      = tget st.Q st.s (sample_action sampler st.policy st.s) 0
        + alpha * ((env.step t st.s (sample_action sampler st.policy st.s)).2.1
            + gamma * npAmax (st.Q.getD
                (env.step t st.s (sample_action sampler st.policy st.s)).1 [])
            - tget st.Q st.s (sample_action sampler st.policy st.s) 0)
    ∧ (∀ x ∈ st.Q.getD (env.step t st.s (sample_action sampler st.policy st.s)).1 [],
        x ≤ npAmax (st.Q.getD (env.step t st.s (sample_action sampler st.policy st.s)).1 []))
    ∧ (∀ sampler₂ : List ℚ → Nat,
        sampler₂ (st.policy.getD st.s []) = sampler (st.policy.getD st.s []) →
        (qlearning_step env sampler₂ gamma alpha t st).Q
          = (qlearning_step env sampler gamma alpha t st).Q)
    ∧ sarsaNewQ [[0, 0], [1, 2]] 0 0 1 0 0 1 1 ≠ qlearnNewQ [[0, 0], [1, 2]] 0 0 1 0 1 1 := by
  refine ⟨?_, ?_, ?_, ?_⟩
  · rw [qlearning_step_Q, tget_tset_self _ _ _ _ _ hs ha]
    rfl
  · intro x hx
    exact le_npAmax _ x hx
  · intro sampler₂ hsam
    rw [qlearning_step_Q, qlearning_step_Q]
    unfold sample_action
    rw [hsam]
  · have hmax : npAmax [1, 2] = 2 := by decide
    norm_num [sarsaNewQ, qlearnNewQ, tget, hmax]

/-- C5 witness: the Q-learning max-bootstrap equation instantiated on a
concrete environment and loop state. -/
theorem C5_qlearning_max_bootstrap_witness :
    tget (qlearning_step envW samplerW 1 1 0 stQW).Q stQW.s
        (sample_action samplerW stQW.policy stQW.s) 0
      = tget stQW.Q stQW.s (sample_action samplerW stQW.policy stQW.s) 0
        + 1 * ((envW.step 0 stQW.s (sample_action samplerW stQW.policy stQW.s)).2.1
            + 1 * npAmax (stQW.Q.getD
                (envW.step 0 stQW.s (sample_action samplerW stQW.policy stQW.s)).1 [])
            - tget stQW.Q stQW.s (sample_action samplerW stQW.policy stQW.s) 0) :=
  (C5_qlearning_max_bootstrap envW samplerW 1 1 0 stQW (by decide) (by decide)).1

/-- C10: the Q update and the policy-row rewrite of a SARSA or Q-learning
step do not depend on the step's `done` flag: two environments whose step
observation differs only in `done` produce identical Q tables and policy
tables; `done` only decides whether the carried state is `env.reset` (and
a fresh action in SARSA) or the observed successor. -/
theorem C10_done_ignored_in_update (env₁ env₂ : Env) (sampler : List ℚ → Nat)
    (gamma alpha : ℚ) (t : Nat) (st : TDState) (stq : QLState)
    (s₁ : Nat) (r₁ : ℚ) (s₂ : Nat) (r₂ : ℚ)
    (hnA : env₁.nA = env₂.nA)
    (h₁t : env₁.step t st.s st.a = (s₁, r₁, true))
    (h₁f : env₂.step t st.s st.a = (s₁, r₁, false))
    (h₂t : env₁.step t stq.s (sample_action sampler stq.policy stq.s) = (s₂, r₂, true))
    (h₂f : env₂.step t stq.s (sample_action sampler stq.policy stq.s) = (s₂, r₂, false)) :
    (td_sarsa_step env₁ sampler gamma alpha t st).Q
        = (td_sarsa_step env₂ sampler gamma alpha t st).Q
    ∧ (td_sarsa_step env₁ sampler gamma alpha t st).policy
        = (td_sarsa_step env₂ sampler gamma alpha t st).policy
    ∧ (td_sarsa_step env₁ sampler gamma alpha t st).s = env₁.reset
    ∧ (td_sarsa_step env₂ sampler gamma alpha t st).s = s₁
    ∧ (qlearning_step env₁ sampler gamma alpha t stq).Q
        = (qlearning_step env₂ sampler gamma alpha t stq).Q
    ∧ (qlearning_step env₁ sampler gamma alpha t stq).policy
        = (qlearning_step env₂ sampler gamma alpha t stq).policy
    ∧ (qlearning_step env₁ sampler gamma alpha t stq).s = env₁.reset
    ∧ (qlearning_step env₂ sampler gamma alpha t stq).s = s₂ := by
  refine ⟨?_, ?_, ?_, ?_, ?_, ?_, ?_, ?_⟩
  · rw [td_sarsa_step_Q, td_sarsa_step_Q, h₁t, h₁f]
  · rw [td_sarsa_step_policy, td_sarsa_step_policy, h₁t, h₁f, hnA]
  · exact td_sarsa_step_reset env₁ sampler gamma alpha t st (by rw [h₁t])
  · exact ((td_sarsa_step_carry env₂ sampler gamma alpha t st (by rw [h₁f])).1).trans
      (by rw [h₁f])
  · rw [qlearning_step_Q, qlearning_step_Q, h₂t, h₂f]
  · rw [qlearning_step_policy, qlearning_step_policy, h₂t, h₂f, hnA]
  · rw [qlearning_step_s, h₂t]
    simp
  · rw [qlearning_step_s, h₂f]
    simp

/-- C10 witness: the done-flag independence instantiated on the concrete
environments `envD` (always done) and `envW` (never done). -/
theorem C10_done_ignored_in_update_witness :
    (td_sarsa_step envD samplerW 1 1 0 stW).Q
        = (td_sarsa_step envW samplerW 1 1 0 stW).Q
    ∧ (td_sarsa_step envD samplerW 1 1 0 stW).policy
        = (td_sarsa_step envW samplerW 1 1 0 stW).policy
    ∧ (td_sarsa_step envD samplerW 1 1 0 stW).s = envD.reset
    ∧ (td_sarsa_step envW samplerW 1 1 0 stW).s = 0
    ∧ (qlearning_step envD samplerW 1 1 0 stQW).Q
        = (qlearning_step envW samplerW 1 1 0 stQW).Q
    ∧ (qlearning_step envD samplerW 1 1 0 stQW).policy
        = (qlearning_step envW samplerW 1 1 0 stQW).policy
    ∧ (qlearning_step envD samplerW 1 1 0 stQW).s = envD.reset
    ∧ (qlearning_step envW samplerW 1 1 0 stQW).s = 0 :=
  C10_done_ignored_in_update envD envW samplerW 1 1 0 stW stQW 0 0 0 0
    rfl rfl rfl rfl rfl

theorem genAux_length_le (env : Env) (sampler : List ℚ → Nat) (policy : List (List ℚ)) :
    ∀ (fuel i s : Nat), (genAux env sampler policy i fuel s).length ≤ fuel := by
  intro fuel
  induction fuel with
  | zero =>
    intro i s
    simp [genAux]
  | succ f ih =>
    intro i s
    rw [genAux]
    by_cases h : (env.step i s (sample_action sampler policy s)).2.2
    · simp [h]
    · simp only [h, Bool.false_eq_true, if_false, List.length_cons]
      have := ih (i + 1) (env.step i s (sample_action sampler policy s)).1
      omega

theorem genAux_length_no_done (env : Env) (sampler : List ℚ → Nat)
    (policy : List (List ℚ)) :
    ∀ (fuel i : Nat),
      (∀ k, i ≤ k → k < i + fuel → doneAt env sampler policy k = false) →
      (genAux env sampler policy i fuel (stateAt env sampler policy i)).length = fuel := by
  intro fuel
  induction fuel with
  | zero =>
    intro i _
    simp [genAux]
  | succ f ih =>
    intro i h
    have hd : (env.step i (stateAt env sampler policy i)
        (sample_action sampler policy (stateAt env sampler policy i))).2.2 = false := by
      have := h i (le_refl i) (by omega)
      unfold doneAt at this
      exact this
    rw [genAux]
    simp only [hd, Bool.false_eq_true, if_false, List.length_cons]
    have hnext : (env.step i (stateAt env sampler policy i)
        (sample_action sampler policy (stateAt env sampler policy i))).1
        = stateAt env sampler policy (i + 1) := rfl
    rw [hnext]
    rw [ih (i + 1) (fun k hk1 hk2 => h k (by omega) (by omega))]

theorem genAux_length_done (env : Env) (sampler : List ℚ → Nat)
    (policy : List (List ℚ)) :
    ∀ (fuel i j : Nat), i ≤ j → j < i + fuel →
      doneAt env sampler policy j = true →
      (∀ k, i ≤ k → k < j → doneAt env sampler policy k = false) →
      (genAux env sampler policy i fuel (stateAt env sampler policy i)).length
        = j - i + 1 := by
  intro fuel
  induction fuel with
  | zero =>
    intro i j hij hlt
    omega
  | succ f ih =>
    intro i j hij hlt hdone hbefore
    rcases Nat.eq_or_lt_of_le hij with rfl | hlt2
    · have hd : (env.step i (stateAt env sampler policy i)
          (sample_action sampler policy (stateAt env sampler policy i))).2.2 = true := by
        unfold doneAt at hdone
        exact hdone
      rw [genAux]
      simp [hd]
    · have hd : (env.step i (stateAt env sampler policy i)
          (sample_action sampler policy (stateAt env sampler policy i))).2.2 = false := by
        have := hbefore i (le_refl i) hlt2
        unfold doneAt at this
        exact this
      rw [genAux]
      simp only [hd, Bool.false_eq_true, if_false, List.length_cons]
      have hnext : (env.step i (stateAt env sampler policy i)
          (sample_action sampler policy (stateAt env sampler policy i))).1
          = stateAt env sampler policy (i + 1) := rfl
      rw [hnext]
      rw [ih (i + 1) j (by omega) (by omega) hdone
        (fun k hk1 hk2 => hbefore k (by omega) hk2)]
      omega

/-- C7: the trajectory of `generate_episode` never exceeds `max_steps`
triples; if the environment never reports `done` within `max_steps` steps
the trajectory has exactly `max_steps` triples; and if `done` is first
reported on (0-based) step `i < max_steps` the trajectory has exactly
`i + 1` triples. -/
theorem C7_generate_episode_length (env : Env) (sampler : List ℚ → Nat)
    (policy : List (List ℚ)) (max_steps : Nat) :
    (generate_episode env sampler policy max_steps).length ≤ max_steps
    ∧ ((∀ k, k < max_steps → doneAt env sampler policy k = false) →
        (generate_episode env sampler policy max_steps).length = max_steps)
    ∧ (∀ i, i < max_steps → doneAt env sampler policy i = true →
        (∀ k, k < i → doneAt env sampler policy k = false) →
        (generate_episode env sampler policy max_steps).length = i + 1) := by
  have hreset : env.reset = stateAt env sampler policy 0 := rfl
  refine ⟨?_, ?_, ?_⟩
  · exact genAux_length_le env sampler policy max_steps 0 env.reset
  · intro h
    unfold generate_episode
    rw [hreset]
    exact genAux_length_no_done env sampler policy max_steps 0
      (fun k _ hk => h k (by omega))
  · intro i hi hdone hbefore
    unfold generate_episode
    rw [hreset]
    have := genAux_length_done env sampler policy max_steps 0 i (by omega) (by omega)
      hdone (fun k _ hk => hbefore k hk)
    simpa using this

/-- C7 witness: under the never-terminating environment `envW`, a bound of
3 steps yields a trajectory of exactly 3 triples. -/
theorem C7_generate_episode_length_witness :
    (generate_episode envW samplerW [[1, 0]] 3).length = 3 :=
  (C7_generate_episode_length envW samplerW [[1, 0]] 3).2.1 (fun _ _ => rfl)

end RL
